import Mathlib

/-!
Verification of the linq header-only query library (src/include/linq.hpp)
against its natural-language specification.

Each stage of the library is shallowly embedded as a Lean function over
lists.  Iterator-based stages are modelled by translating the iterator
state machine (cursor positions into the predecessor list, shared mutable
buffers as explicitly threaded state, loops as fuel-indexed structural
recursion where C++ uses unbounded loops).  Machine integers of the C++
template instantiations are modelled as unbounded integers (Int) and the
numeric terminal operations over exact rationals (Rat); `size_t`
wrap-around that the code relies on (reverse_range's "index before 0"
sentinel) is modelled by the observationally identical Int value -1.
-/

namespace Linq

/-- Sort direction, from `enum class sort_direction` (linq.hpp:42). -/
inductive SortDirection
  | ascending
  | descending
deriving DecidableEq

/-- Comparator of `order_by_range::compare_keys` (linq.hpp:1335-1341):
ascending compares `key a < key b`, descending swaps the operands. -/
def compare_keys {α κ : Type} [LinearOrder κ] (key_selector : α → κ)
    (dir : SortDirection) (a b : α) : Bool :=
  match dir with
  | SortDirection.ascending => decide (key_selector a < key_selector b)
  | SortDirection.descending => decide (key_selector b < key_selector a)

/-- Sortedness in the sense of std::is_sorted with respect to a strict comparator: no adjacent pair
is out of order.  This is the ordering part of the postcondition that
`std::sort` (used by `order_by_range::begin`, linq.hpp:1324) guarantees. -/
def sorted_by {α : Type} (cmp : α → α → Bool) : List α → Bool
  | [] => true
  | [_] => true
  | a :: b :: t => !cmp b a && sorted_by cmp (b :: t)

/-- The full contract of `std::sort(first, last, cmp)`: the output is a
permutation of the input that is sorted with respect to `cmp`.  The C++
standard guarantees nothing further; in particular the relative order of
elements that compare equivalent is unspecified. -/
def std_sort_contract {α : Type} (cmp : α → α → Bool)
    (input output : List α) : Prop :=
  output.Perm input ∧ sorted_by cmp output = true

/-- Modelled from the spec: "**Stable sort**: a sort preserving relative
order of elements with equal keys."  Realised as insertion sort with a
strict comparator: an element moves in front of `y` only when it is
strictly smaller, so equivalent elements keep their input order. -/
def stable_insert {α : Type} (cmp : α → α → Bool) (x : α) : List α → List α
  | [] => [x]
  | y :: ys => if cmp x y then x :: y :: ys else y :: stable_insert cmp x ys

/-- Modelled from the spec: the stable sort the specification requires of
`order_by` — elements are inserted in input order, each after all already
placed elements it does not strictly precede (see `stable_insert`). -/
def stable_sort {α : Type} (cmp : α → α → Bool) (l : List α) : List α :=
  l.foldl (fun acc x => stable_insert cmp x acc) []

/-!
## distinct (linq.hpp:378-456)

The `distinct_range` keeps one `mutable object_container m_encountered_objects`
per range object.  Every cursor holds a pointer to that single container, so
the container is shared state threaded explicitly here (`w`).  Stored entries
are predecessor iterator positions, modelled as indices into the input list;
`contains_object` compares the *values* found at the stored positions.
A cursor itself is just its current position `i`; `i = l.length` is the end
sentinel (`m_begin == m_end`).
-/

/-- Model of `distinct_range::iterator::contains_object` (linq.hpp:416-426): linear
scan of the encountered positions, comparing dereferenced values. -/
def contains_object {α : Type} [DecidableEq α] (l : List α) (w : List Nat)
    (v : α) : Bool :=
  w.any fun j => decide (l[j]? = some v)

/-- The do-while loop of `distinct_range::iterator::operator++`
(linq.hpp:405-408): starting at position `j`, skip forward past positions
whose value was already encountered.  The loop runs at most `l.length`
steps, which the fuel argument makes structural. -/
def distinct_seek {α : Type} [DecidableEq α] (l : List α) (w : List Nat) :
    Nat → Nat → Nat
  | 0, j => j
  | Nat.succ fuel, j =>
    if h : j < l.length then
      if contains_object l w (l.get ⟨j, h⟩) then distinct_seek l w fuel (j + 1)
      else j
    else j

/-- Model of `distinct_range::iterator::operator++` (linq.hpp:405-414): advance past
the current position, skip encountered values, and if the landing position
is not the end, record it in the shared container (`push_back`). -/
def distinct_advance {α : Type} [DecidableEq α] (l : List α) (i : Nat)
    (w : List Nat) : Nat × List Nat :=
  let j := distinct_seek l w l.length (i + 1)
  if j < l.length then (j, w ++ [j]) else (j, w)

/-- Model of `distinct_range::begin` together with the iterator constructor
(linq.hpp:387-395, 444-446): if the predecessor is non-empty, the shared
container is cleared and re-seeded with the first position; the cursor
starts at position 0 (which equals the end sentinel when `l` is empty). -/
def distinct_start {α : Type} (l : List α) (w : List Nat) : Nat × List Nat :=
  if 0 < l.length then (0, [0]) else (0, w)

/-- Model of `distinct_range::iterator::operator*` (linq.hpp:428-430). -/
def distinct_deref {α : Type} [Inhabited α] (l : List α) (i : Nat) : α :=
  (l[i]?).getD default

/-- Driving a distinct cursor to exhaustion: the `to_vector` loop
(linq.hpp:2256-2264) specialised to the distinct stage.  Each iteration
dereferences the cursor and advances it; the cursor strictly advances, so
`l.length + 1` fuel always suffices. -/
def distinct_run {α : Type} [Inhabited α] [DecidableEq α] (l : List α) :
    Nat → Nat × List Nat → List α
  | 0, _ => []
  | Nat.succ fuel, c =>
    if c.1 < l.length then
      distinct_deref l c.1 :: distinct_run l fuel (distinct_advance l c.1 c.2)
    else []

/-- The full output of one fresh traversal of `distinct()`. -/
def distinct_list {α : Type} [Inhabited α] [DecidableEq α] (l : List α) :
    List α :=
  distinct_run l (l.length + 1) (distinct_start l [])

/-- Modelled from the spec: "`distinct()` output ... is a sub-sequence of
the original preserving first-occurrence order" — keep each element whose
value has not been seen before. -/
def keep_firsts {α : Type} [DecidableEq α] : List α → List α → List α
  | _, [] => []
  | seen, x :: xs =>
    if x ∈ seen then keep_firsts seen xs else x :: keep_firsts (x :: seen) xs

/-!
## append (linq.hpp:1007-1070)

`append_range::iterator` holds cursors into both ranges; crucially its
`operator==`/`operator!=` (linq.hpp:1023-1029) compare *only* the cursor
into the second range (`m_other_begin`), so the `to_vector` loop stops as
soon as that cursor equals the second range's end.  Cursors are modelled as
the remaining suffixes of the two lists.
-/

/-- The iteration loop over an `append_range`: stop when the second cursor
has reached its end (`operator==` compares only `m_other_begin`), otherwise
dereference (first range while it lasts, then the second, linq.hpp:1042-1044)
and advance (linq.hpp:1031-1040). -/
def append_collect {α : Type} : List α → List α → List α
  | _, [] => []
  | [], b :: bs => b :: append_collect ([] : List α) bs
  | a :: as, bs => a :: append_collect as bs

/-!
## Terminal operations (linq.hpp:1943-2264)

All of them drive the range-for loop over the predecessor; the element
type is modelled as the exact rationals for the numeric operations.
-/

/-- Model of `base_range::sum` (linq.hpp:1943-1962): first element seeds the
accumulator, later elements are added; empty input yields an empty
optional. -/
def sum_op (l : List ℚ) : Option ℚ :=
  l.foldl
    (fun acc p => match acc with
      | none => some p
      | some r => some (r + p))
    none

/-- Model of `base_range::min` (linq.hpp:1965-1984): keeps the current element when
`p < result`. -/
def min_op (l : List ℚ) : Option ℚ :=
  l.foldl
    (fun acc p => match acc with
      | none => some p
      | some r => some (if p < r then p else r))
    none

/-- Model of `base_range::max` (linq.hpp:1987-2006): keeps the current element when
`result < p`. -/
def max_op (l : List ℚ) : Option ℚ :=
  l.foldl
    (fun acc p => match acc with
      | none => some p
      | some r => some (if r < p then p else r))
    none

/-- Model of `base_range::sum_and_count` (linq.hpp:2009-2031): the same fold as
`sum`, also counting every element. -/
def sum_and_count (l : List ℚ) : Option (ℚ × Nat) :=
  let r :=
    l.foldl
      (fun (ac : Option ℚ × Nat) p =>
        (match ac.1 with
          | none => some p
          | some s => some (s + p), ac.2 + 1))
      (none, 0)
  match r.1 with
  | none => none
  | some s => some (s, r.2)

/-- Model of `calculate_average` (linq.hpp:128-147): divides the optional sum by the
count; an empty sum propagates the empty optional. -/
def average_op (l : List ℚ) : Option ℚ :=
  match sum_and_count l with
  | none => none
  | some sc => some (sc.1 / (sc.2 : ℚ))

/-- Model of `base_range::first` (linq.hpp:2062-2072): returns the first element of
the traversal, or an empty optional. -/
def first_op {α : Type} : List α → Option α
  | [] => none
  | x :: _ => some x

/-- Model of `base_range::first(predicate)` (linq.hpp:2086-2102): returns the first
matching element, or an empty optional. -/
def first_pred {α : Type} (p : α → Bool) : List α → Option α
  | [] => none
  | x :: xs => if p x then some x else first_pred p xs

/-- Model of `base_range::last` (linq.hpp:2116-2130): overwrites the result with
every element; the `first` flag is the `none` state of the accumulator. -/
def last_op {α : Type} (l : List α) : Option α :=
  l.foldl (fun _ x => some x) none

/-- Model of `base_range::last(predicate)` (linq.hpp:2144-2160): overwrites the
result with every matching element. -/
def last_pred {α : Type} (p : α → Bool) (l : List α) : Option α :=
  l.foldl (fun acc x => if p x then some x else acc) none

/-- Model of `base_range::all` (linq.hpp:2187-2195): false as soon as one element
fails the predicate, true otherwise (also for the empty range). -/
def all_op {α : Type} (p : α → Bool) : List α → Bool
  | [] => true
  | x :: xs => if p x then all_op p xs else false

/-- The loop of `base_range::none` (linq.hpp:2199-2212) after the first
element has been seen (`any_elements` is already true): the loop breaks
with `any_none = true` at the first element failing the predicate and
returns `any_none`. -/
def none_loop {α : Type} (p : α → Bool) : List α → Bool
  | [] => false
  | x :: xs => if p x then none_loop p xs else true

/-- Model of `base_range::none` (linq.hpp:2199-2213): an empty range returns true
(`any_elements` stays false); otherwise the result is whether some element
fails the predicate. -/
def none_op {α : Type} (p : α → Bool) : List α → Bool
  | [] => true
  | x :: xs => if p x then none_loop p xs else true

/-- Model of `base_range::element_at` (linq.hpp:2241-2253): walks the range with a
running index and returns the element once the index reaches `index`;
if the range ends first, the caller-supplied default value is returned. -/
def element_at {α : Type} : List α → Nat → α → α
  | [], _, d => d
  | x :: _, 0, _ => x
  | _ :: xs, Nat.succ n, d => element_at xs n d

/-!
## join (linq.hpp:1148-1269)

`join_range::iterator::find_next` (linq.hpp:1206-1239) scans the right
range from the current right cursor for the first key match of the current
left element; on exhausting the right range it resets the right cursor to
the right range's begin and advances the left cursor.  `operator++` calls
`find_next(true)`, pre-incrementing the right cursor so the scan resumes
just past the previous match.  The left cursor is modelled as the remaining
left suffix and the right cursor as the remaining right suffix.
-/

/-- The inner while loop of `find_next` (linq.hpp:1218-1227): first element
of the right suffix whose key equals `k`, together with the suffix just
past it. -/
def find_match {β κ : Type} [DecidableEq κ] (kb : β → κ) (k : κ) :
    List β → Option (β × List β)
  | [] => none
  | r :: rs => if k = kb r then some (r, rs) else find_match kb k rs

lemma find_match_length {β κ : Type} [DecidableEq κ] (kb : β → κ) (k : κ) :
    ∀ (rs : List β) (r : β) (rest : List β),
      find_match kb k rs = some (r, rest) → rest.length < rs.length := by
  intro rs
  induction rs with
  | nil => intro r rest h; simp [find_match] at h
  | cons b bs ih =>
    intro r rest h
    by_cases hk : k = kb b
    · simp [find_match, hk] at h
      simp [h.2.symm]
    · simp [find_match, hk] at h
      exact Nat.lt_trans (ih r rest h) (by simp)

/-- The outer loop of `find_next` plus the driving iteration: emit one
transformed pair per match, resume the right scan past the match for the
same left element, and on a failed scan reset the right cursor to the full
right range and move to the next left element. -/
def join_aux {α β κ γ : Type} [DecidableEq κ] (right : List β) (ka : α → κ)
    (kb : β → κ) (t : α → β → γ) : List α → List β → List γ
  | [], _ => []
  | l :: ls, rs =>
    match h : find_match kb (ka l) rs with
    | some rr => t l rr.1 :: join_aux right ka kb t (l :: ls) rr.2
    | none => join_aux right ka kb t ls right
termination_by ls rs => (ls.length, rs.length)
decreasing_by
  · exact Prod.Lex.right _ (find_match_length kb (ka l) rs rr.1 rr.2 h)
  · exact Prod.Lex.left _ _ (by simp)

/-- The full output of `join` over two finite ranges: the iterator starts
with both cursors at their begin positions (`find_next(false)`,
linq.hpp:1162-1173) and is driven to the end sentinel. -/
def join_list {α β κ γ : Type} [DecidableEq κ] (left : List α)
    (right : List β) (ka : α → κ) (kb : β → κ) (t : α → β → γ) : List γ :=
  join_aux right ka kb t left right

/-!
## from_to (linq.hpp:1650-1725)

The constructor (linq.hpp:1698-1711) unsigns the step and re-inverts it
when iterating backwards.  The iterator compares cursors by their cached
`m_value` (updated only by `operator*`), increments only `m_index` on
`operator++`, and `operator*` recomputes `m_value = step * index + start`
clamped to the bound (linq.hpp:1676-1689).  The loop is modelled with fuel
(the C++ loop does not terminate for a zero step).
-/

/-- Step unsigning of the `from_to_range` constructor (linq.hpp:1702-1705). -/
def unsign_step (step : ℤ) : ℤ :=
  if step < 0 then -step else step

/-- Full step normalisation of the constructor (linq.hpp:1702-1710): unsign,
then invert when `start > end`. -/
def normal_step (start e step : ℤ) : ℤ :=
  if start > e then -(unsign_step step) else unsign_step step

/-- The clamp of `from_to_range::iterator::operator*` (linq.hpp:1676-1689):
a negative step clamps from below at the bound, otherwise from above. -/
def clamp_value (e s v : ℤ) : ℤ :=
  if s < 0 then (if v < e then e else v) else (if v > e then e else v)

/-- The iteration loop over a `from_to_range`: the loop guard compares the
previously dereferenced value (initially `start`) against the end iterator's
value `e`; each iteration dereferences (recomputing and clamping
`start + s * k`) and increments the index. -/
def from_to_go (start e s : ℤ) : Nat → Nat → ℤ → List ℤ
  | 0, _, _ => []
  | Nat.succ fuel, k, prev =>
    if prev = e then []
    else
      clamp_value e s (start + s * k) ::
        from_to_go start e s fuel (k + 1) (clamp_value e s (start + s * k))

/-- The full output of `from_to(start, end, step)` for integral
instantiations: fuel `(e - start).natAbs + 2` covers every terminating run
(a nonzero normalised step reaches the bound in at most `|e - start|`
steps). -/
def from_to_list (start e step : ℤ) : List ℤ :=
  from_to_go start e (normal_step start e step) ((e - start).natAbs + 2) 0 start

/-- Number of unclamped values emitted before the end bound: for a nonzero
step pointing from `start` towards `e`, the clamp first fires (or the bound
is hit exactly) at index `(|e - start| - 1) / |s| + 1`. -/
def steps_to_end (start e s : ℤ) : Nat :=
  ((e - start).natAbs - 1) / s.natAbs + 1

/-!
## reverse (linq.hpp:699-757)

`reverse_range::begin` materialises all predecessor cursor positions into a
buffer and starts at index `size - 1`; `operator++` decrements the index and
the end sentinel is `size_t(-1)` ("before index 0", reached from 0 by
wrap-around, and equal to `size - 1` exactly when the buffer is empty).
The index is modelled as an Int, with -1 playing the role of `size_t(-1)`;
the walk is fueled (`length + 1` steps always suffice). -/

/-- The iteration loop over a `reverse_range`: dereference the buffered
position at the current index, then decrement the index; stop at the
sentinel index -1. -/
def reverse_collect {α : Type} [Inhabited α] (buf : List α) :
    Nat → ℤ → List α
  | 0, _ => []
  | Nat.succ fuel, i =>
    if i = -1 then []
    else (buf[i.toNat]?).getD default :: reverse_collect buf fuel (i - 1)

/-- The full output of `reverse()`: materialise the predecessor's output
and walk it back to front. -/
def reverse_list {α : Type} [Inhabited α] (l : List α) : List α :=
  reverse_collect l (l.length + 1) ((l.length : ℤ) - 1)

/-- Model of `reverse_range::begin` (linq.hpp:740-748) as seen by a fresh
cursor: the shared buffer `m_prev_iterators` is cleared and refilled from
the predecessor alone — the stale contents `w` left behind by earlier
traversals never contribute — and the cursor starts at index `size - 1`.
Returns the new shared buffer together with the start index. -/
def reverse_start {α : Type} (l : List α) (w : List α) : List α × ℤ :=
  (l, (l.length : ℤ) - 1)

/-- Model of `order_by_range::begin` (linq.hpp:1317-1329) as seen by a
fresh cursor: the shared buffer `m_sorted_values` is cleared, refilled
from the predecessor alone (the stale contents `w` left behind by earlier
traversals never contribute), and sorted with `std::sort` over
`compare_keys` — represented by an arbitrary implementation `sort_impl`,
since the standard fixes no particular output beyond `std_sort_contract`.
Returns the new shared buffer together with the start index 0; the cursor
walks the buffer from front to back. -/
def order_by_start {α κ : Type} [LinearOrder κ]
    (sort_impl : (α → α → Bool) → List α → List α) (key_selector : α → κ)
    (dir : SortDirection) (l : List α) (w : List α) : List α × Nat :=
  (sort_impl (compare_keys key_selector dir) l, 0)

/-!
## Helper lemmas
-/

lemma append_collect_nil_left {α : Type} :
    ∀ bs : List α, append_collect ([] : List α) bs = bs := by
  intro bs
  induction bs with
  | nil => simp [append_collect]
  | cons b bs ih => simp [append_collect, ih]

lemma append_collect_eq_append {α : Type} :
    ∀ (as bs : List α), bs ≠ [] → append_collect as bs = as ++ bs := by
  intro as
  induction as with
  | nil => intro bs _; simpa using append_collect_nil_left bs
  | cons a as ih =>
    intro bs hbs
    cases bs with
    | nil => exact absurd rfl hbs
    | cons b bs => simp [append_collect, ih (b :: bs) (by simp)]

lemma none_loop_eq_not_all {α : Type} (p : α → Bool) :
    ∀ l : List α, none_loop p l = !all_op p l := by
  intro l
  induction l with
  | nil => simp [none_loop, all_op]
  | cons x xs ih =>
    by_cases hx : p x = true
    · simp [none_loop, all_op, hx, ih]
    · simp [none_loop, all_op, hx]

lemma all_op_iff {α : Type} (p : α → Bool) :
    ∀ l : List α, all_op p l = true ↔ ∀ x ∈ l, p x = true := by
  intro l
  induction l with
  | nil => simp [all_op]
  | cons x xs ih =>
    by_cases hx : p x = true
    · simp [all_op, hx, ih]
    · simp [all_op, hx]

lemma first_op_eq_head {α : Type} : ∀ l : List α, first_op l = l.head?
  | [] => rfl
  | _ :: _ => rfl

lemma last_fold_some {α : Type} :
    ∀ (xs : List α) (a : α),
      xs.foldl (fun _ y => some y) (some a) = (a :: xs).getLast? := by
  intro xs
  induction xs with
  | nil => intro a; rfl
  | cons b bs ih =>
    intro a
    rw [List.getLast?_cons_cons]
    exact ih b

lemma last_op_eq_getLast {α : Type} : ∀ l : List α, last_op l = l.getLast? := by
  intro l
  cases l with
  | nil => rfl
  | cons x xs => exact last_fold_some xs x

lemma first_pred_eq_filter_head {α : Type} (p : α → Bool) :
    ∀ l : List α, first_pred p l = (l.filter p).head? := by
  intro l
  induction l with
  | nil => rfl
  | cons x xs ih =>
    by_cases hx : p x = true
    · simp [first_pred, hx, List.filter_cons_of_pos]
    · simp only [Bool.not_eq_true] at hx
      simp [first_pred, hx, ih]

lemma getLast?_cons_or {α : Type} (y : α) :
    ∀ F : List α, (y :: F).getLast? = F.getLast?.or (some y) := by
  intro F
  cases F with
  | nil => rfl
  | cons b l =>
    rw [List.getLast?_cons_cons]
    have hne : (b :: l).getLast?.isSome := by
      rw [List.getLast?_isSome]
      simp
    obtain ⟨v, hv⟩ := Option.isSome_iff_exists.mp hne
    simp [hv]

lemma last_pred_fold_or {α : Type} (p : α → Bool) :
    ∀ (xs : List α) (acc : Option α),
      xs.foldl (fun a x => if p x then some x else a) acc =
        ((xs.filter p).getLast?).or acc := by
  intro xs
  induction xs with
  | nil => intro acc; rfl
  | cons y ys ih =>
    intro acc
    by_cases hy : p y = true
    · simp only [List.foldl_cons, hy, if_pos]
      rw [ih (some y), List.filter_cons_of_pos hy, getLast?_cons_or,
        Option.or_assoc]
      simp [Option.or]
    · simp only [Bool.not_eq_true] at hy
      simp only [List.foldl_cons, hy]
      rw [if_neg (by simp), ih acc, List.filter_cons_of_neg (by simp [hy])]

lemma last_pred_eq_filter_getLast {α : Type} (p : α → Bool) (l : List α) :
    last_pred p l = (l.filter p).getLast? := by
  rw [last_pred, last_pred_fold_or p l none]
  cases h : (l.filter p).getLast? <;> simp

lemma sum_fold_some :
    ∀ (xs : List ℚ) (r : ℚ),
      xs.foldl
        (fun acc p => match acc with
          | none => some p
          | some s => some (s + p))
        (some r) = some (r + xs.sum) := by
  intro xs
  induction xs with
  | nil => intro r; simp
  | cons x xs ih =>
    intro r
    simp only [List.foldl_cons, List.sum_cons]
    rw [ih (r + x), add_assoc]

lemma sum_op_cons (x : ℚ) (xs : List ℚ) :
    sum_op (x :: xs) = some ((x :: xs).sum) := by
  simp only [sum_op, List.foldl_cons, List.sum_cons]
  exact sum_fold_some xs x

lemma min_step_eq (r p : ℚ) : (if p < r then p else r) = min r p := by
  rcases lt_or_ge p r with h | h
  · rw [if_pos h, min_eq_right (le_of_lt h)]
  · rw [if_neg (not_lt.mpr h), min_eq_left h]

lemma max_step_eq (r p : ℚ) : (if r < p then p else r) = max r p := by
  rcases lt_or_ge r p with h | h
  · rw [if_pos h, max_eq_right (le_of_lt h)]
  · rw [if_neg (not_lt.mpr h), max_eq_left h]

lemma min_fold_some :
    ∀ (xs : List ℚ) (r : ℚ),
      xs.foldl
        (fun acc p => match acc with
          | none => some p
          | some s => some (if p < s then p else s))
        (some r) = some (xs.foldl min r) := by
  intro xs
  induction xs with
  | nil => intro r; rfl
  | cons x xs ih =>
    intro r
    simp only [List.foldl_cons]
    rw [min_step_eq, ih (min r x)]

lemma max_fold_some :
    ∀ (xs : List ℚ) (r : ℚ),
      xs.foldl
        (fun acc p => match acc with
          | none => some p
          | some s => some (if s < p then p else s))
        (some r) = some (xs.foldl max r) := by
  intro xs
  induction xs with
  | nil => intro r; rfl
  | cons x xs ih =>
    intro r
    simp only [List.foldl_cons]
    rw [max_step_eq, ih (max r x)]

lemma foldl_min_mem : ∀ (xs : List ℚ) (r : ℚ), xs.foldl min r ∈ r :: xs := by
  intro xs
  induction xs with
  | nil => intro r; simp
  | cons x xs ih =>
    intro r
    have h := ih (min r x)
    rcases min_choice r x with hc | hc <;>
      · rw [List.foldl_cons]
        rcases List.mem_cons.mp h with h1 | h1 <;> simp [hc] at h1 ⊢ <;> simp [h1]

lemma foldl_min_le :
    ∀ (xs : List ℚ) (r : ℚ) (y : ℚ), y ∈ r :: xs → xs.foldl min r ≤ y := by
  intro xs
  induction xs with
  | nil =>
    intro r y hy
    simp at hy
    simp [hy]
  | cons x xs ih =>
    intro r y hy
    rw [List.foldl_cons]
    have hself : xs.foldl min (min r x) ≤ min r x :=
      ih (min r x) (min r x) (List.mem_cons_self _ _)
    rcases List.mem_cons.mp hy with h1 | h1
    · rw [h1]
      exact le_trans hself (min_le_left r x)
    · rcases List.mem_cons.mp h1 with h2 | h2
      · rw [h2]
        exact le_trans hself (min_le_right r x)
      · exact ih (min r x) y (List.mem_cons_of_mem _ h2)

lemma foldl_max_mem : ∀ (xs : List ℚ) (r : ℚ), xs.foldl max r ∈ r :: xs := by
  intro xs
  induction xs with
  | nil => intro r; simp
  | cons x xs ih =>
    intro r
    have h := ih (max r x)
    rcases max_choice r x with hc | hc <;>
      · rw [List.foldl_cons]
        rcases List.mem_cons.mp h with h1 | h1 <;> simp [hc] at h1 ⊢ <;> simp [h1]

lemma foldl_max_ge :
    ∀ (xs : List ℚ) (r : ℚ) (y : ℚ), y ∈ r :: xs → y ≤ xs.foldl max r := by
  intro xs
  induction xs with
  | nil =>
    intro r y hy
    simp at hy
    simp [hy]
  | cons x xs ih =>
    intro r y hy
    rw [List.foldl_cons]
    have hself : max r x ≤ xs.foldl max (max r x) :=
      ih (max r x) (max r x) (List.mem_cons_self _ _)
    rcases List.mem_cons.mp hy with h1 | h1
    · rw [h1]
      exact le_trans (le_max_left r x) hself
    · rcases List.mem_cons.mp h1 with h2 | h2
      · rw [h2]
        exact le_trans (le_max_right r x) hself
      · exact ih (max r x) y (List.mem_cons_of_mem _ h2)

lemma min_op_some_iff (l : List ℚ) (m : ℚ) :
    min_op l = some m ↔ m ∈ l ∧ ∀ y ∈ l, m ≤ y := by
  cases l with
  | nil => simp [min_op]
  | cons x xs =>
    have hrw : min_op (x :: xs) = some (xs.foldl min x) := by
      simp only [min_op, List.foldl_cons]
      exact min_fold_some xs x
    rw [hrw]
    constructor
    · intro h
      have hm : m = xs.foldl min x := by simpa using h.symm
      subst hm
      exact ⟨foldl_min_mem xs x, fun y hy => foldl_min_le xs x y hy⟩
    · intro ⟨hmem, hle⟩
      have h1 : xs.foldl min x ≤ m := foldl_min_le xs x m hmem
      have h2 : m ≤ xs.foldl min x := hle _ (foldl_min_mem xs x)
      rw [le_antisymm h2 h1]

lemma max_op_some_iff (l : List ℚ) (m : ℚ) :
    max_op l = some m ↔ m ∈ l ∧ ∀ y ∈ l, y ≤ m := by
  cases l with
  | nil => simp [max_op]
  | cons x xs =>
    have hrw : max_op (x :: xs) = some (xs.foldl max x) := by
      simp only [max_op, List.foldl_cons]
      exact max_fold_some xs x
    rw [hrw]
    constructor
    · intro h
      have hm : m = xs.foldl max x := by simpa using h.symm
      subst hm
      exact ⟨foldl_max_mem xs x, fun y hy => foldl_max_ge xs x y hy⟩
    · intro ⟨hmem, hle⟩
      have h1 : m ≤ xs.foldl max x := foldl_max_ge xs x m hmem
      have h2 : xs.foldl max x ≤ m := hle _ (foldl_max_mem xs x)
      rw [le_antisymm h1 h2]

lemma sum_count_fold :
    ∀ (xs : List ℚ) (r : ℚ) (c : Nat),
      xs.foldl
        (fun (ac : Option ℚ × Nat) p =>
          (match ac.1 with
            | none => some p
            | some s => some (s + p), ac.2 + 1))
        (some r, c) = (some (r + xs.sum), c + xs.length) := by
  intro xs
  induction xs with
  | nil => intro r c; simp
  | cons x xs ih =>
    intro r c
    simp only [List.foldl_cons, List.sum_cons, List.length_cons]
    rw [ih (r + x) (c + 1), add_assoc]
    ring_nf

lemma sum_and_count_cons (x : ℚ) (xs : List ℚ) :
    sum_and_count (x :: xs) = some ((x :: xs).sum, (x :: xs).length) := by
  simp only [sum_and_count, List.foldl_cons]
  rw [sum_count_fold xs x 1]
  simp [add_comm]

lemma average_op_cons (x : ℚ) (xs : List ℚ) :
    average_op (x :: xs) =
      some ((x :: xs).sum / ((x :: xs).length : ℚ)) := by
  rw [average_op, sum_and_count_cons]

lemma distinct_seek_of_len_le {α : Type} [DecidableEq α] (l : List α)
    (w : List Nat) :
    ∀ (f j : Nat), l.length ≤ j → distinct_seek l w f j = j := by
  intro f j hj
  cases f with
  | zero => rfl
  | succ f =>
    rw [distinct_seek, dif_neg (by omega)]

lemma distinct_seek_fuel {α : Type} [DecidableEq α] (l : List α)
    (w : List Nat) :
    ∀ (f1 f2 j : Nat), l.length ≤ j + f1 → l.length ≤ j + f2 →
      distinct_seek l w f1 j = distinct_seek l w f2 j := by
  intro f1
  induction f1 with
  | zero =>
    intro f2 j h1 h2
    rw [distinct_seek_of_len_le l w 0 j (by omega),
      distinct_seek_of_len_le l w f2 j (by omega)]
  | succ f1 ih =>
    intro f2 j h1 h2
    by_cases hj : j < l.length
    · cases f2 with
      | zero => omega
      | succ f2 =>
        rw [distinct_seek, distinct_seek, dif_pos hj, dif_pos hj]
        by_cases hc : contains_object l w (l.get ⟨j, hj⟩) = true
        · rw [if_pos hc, if_pos hc]
          exact ih f2 (j + 1) (by omega) (by omega)
        · rw [if_neg hc, if_neg hc]
    · rw [distinct_seek_of_len_le l w (f1 + 1) j (by omega),
        distinct_seek_of_len_le l w f2 j (by omega)]

lemma contains_object_append_iff {α : Type} [DecidableEq α] (l : List α)
    (w : List Nat) (i : Nat) (x v : α) (hx : l[i]? = some x)
    (seen : List α)
    (hw : ∀ u, contains_object l w u = true ↔ u ∈ seen) :
    contains_object l (w ++ [i]) v = true ↔ v ∈ x :: seen := by
  simp only [contains_object, List.any_append, Bool.or_eq_true] at *
  constructor
  · intro h
    rcases h with h | h
    · exact List.mem_cons_of_mem _ ((hw v).mp h)
    · simp [hx] at h
      simp [h]
  · intro h
    rcases List.mem_cons.mp h with h | h
    · right
      simp [hx, h]
    · exact Or.inl ((hw v).mpr h)

lemma distinct_run_advance_eq {α : Type} [Inhabited α] [DecidableEq α]
    (l : List α) :
    ∀ (rest : List α) (i : Nat) (w : List Nat) (seen : List α) (fuel : Nat),
      l.drop (i + 1) = rest →
      (∀ v, contains_object l w v = true ↔ v ∈ seen) →
      rest.length + 1 ≤ fuel →
      distinct_run l fuel (distinct_advance l i w) = keep_firsts seen rest := by
  intro rest
  induction rest with
  | nil =>
    intro i w seen fuel hdrop hw hfuel
    have hlen : l.length ≤ i + 1 := by
      by_contra hcon
      have := List.drop_eq_nil_iff.mp hdrop
      omega
    have hadv : distinct_advance l i w = (i + 1, w) := by
      rw [distinct_advance]
      simp only [distinct_seek_of_len_le l w l.length (i + 1) hlen]
      rw [if_neg (by omega)]
    rw [hadv]
    cases fuel with
    | zero => omega
    | succ fuel =>
      rw [distinct_run, if_neg (by simp; omega)]
      rfl
  | cons x rest ih =>
    intro i w seen fuel hdrop hw hfuel
    have hi1 : i + 1 < l.length := by
      by_contra hcon
      rw [List.drop_eq_nil_of_le (by omega)] at hdrop
      exact List.noConfusion hdrop
    have hx : l[i + 1]? = some x := by
      have h0 : (l.drop (i + 1))[0]? = l[i + 1 + 0]? := List.getElem?_drop l (i + 1) 0
      rw [hdrop] at h0
      simpa using h0.symm
    have hdrop2 : l.drop (i + 2) = rest := by
      have h2 := List.drop_drop 1 (i + 1) l
      rw [hdrop] at h2
      simpa using h2.symm
    have hget : l.get ⟨i + 1, hi1⟩ = x := by
      have := List.getElem?_eq_getElem hi1
      rw [hx] at this
      exact (Option.some_inj.mp this).symm
    by_cases hc : contains_object l w x = true
    · -- the advance loop skips position i+1; same as advancing from i+1
      have hseek : distinct_seek l w l.length (i + 1) =
          distinct_seek l w l.length (i + 2) := by
        have hlen0 : 0 < l.length := by omega
        cases hL : l.length with
        | zero => omega
        | succ L =>
          rw [distinct_seek, dif_pos (by omega : i + 1 < l.length)]
          rw [hget, if_pos hc]
          exact distinct_seek_fuel l w L (L + 1) (i + 2) (by omega) (by omega)
      have hadv : distinct_advance l i w = distinct_advance l (i + 1) w := by
        rw [distinct_advance, distinct_advance]
        simp only [hseek]
      rw [hadv, ih (i + 1) w seen fuel hdrop2 hw (by simpa using Nat.le_of_succ_le hfuel)]
      rw [keep_firsts, if_pos ((hw x).mp hc)]
    · -- position i+1 is fresh: it is emitted and recorded
      have hseek : distinct_seek l w l.length (i + 1) = i + 1 := by
        cases hL : l.length with
        | zero => omega
        | succ L =>
          rw [distinct_seek, dif_pos (by omega : i + 1 < l.length)]
          rw [hget, if_neg hc]
      have hadv : distinct_advance l i w = (i + 1, w ++ [i + 1]) := by
        rw [distinct_advance]
        simp only [hseek]
        rw [if_pos hi1]
      cases fuel with
      | zero => omega
      | succ fuel =>
        rw [hadv, distinct_run, if_pos (by simpa using hi1)]
        have hderef : distinct_deref l (i + 1) = x := by
          rw [distinct_deref, hx]
          rfl
        rw [hderef,
          ih (i + 1) (w ++ [i + 1]) (x :: seen) fuel hdrop2
            (fun v => contains_object_append_iff l w (i + 1) x v hx seen hw)
            (by simpa using hfuel)]
        rw [keep_firsts, if_neg (fun hmem => hc ((hw x).mpr hmem))]

lemma contains_object_single_iff {α : Type} [DecidableEq α] (l : List α)
    (x v : α) (hx : l[0]? = some x) :
    contains_object l [0] v = true ↔ v ∈ [x] := by
  simp [contains_object, hx]
  constructor
  · intro h; simp [h]
  · intro h; simp [h]

lemma distinct_list_eq_keep_firsts {α : Type} [Inhabited α] [DecidableEq α]
    (l : List α) : distinct_list l = keep_firsts [] l := by
  cases l with
  | nil => rfl
  | cons x xs =>
    have hx : (x :: xs)[0]? = some x := by simp
    have hderef : distinct_deref (x :: xs) 0 = x := by
      rw [distinct_deref, hx]
      rfl
    rw [distinct_list, distinct_start, if_pos (by simp)]
    rw [distinct_run, if_pos (by simp)]
    simp only [List.length_cons, hderef]
    rw [distinct_run_advance_eq (x :: xs) xs 0 [0] [x] (xs.length + 1)
      (by simp)
      (fun v => contains_object_single_iff (x :: xs) x v hx)
      (by simp)]
    rw [keep_firsts, if_neg (by simp)]

lemma keep_firsts_sublist {α : Type} [DecidableEq α] :
    ∀ (l seen : List α), List.Sublist (keep_firsts seen l) l := by
  intro l
  induction l with
  | nil => intro seen; simp [keep_firsts]
  | cons x xs ih =>
    intro seen
    rw [keep_firsts]
    by_cases hx : x ∈ seen
    · rw [if_pos hx]
      exact List.Sublist.cons x (ih seen)
    · rw [if_neg hx]
      exact List.Sublist.cons₂ x (ih (x :: seen))

lemma keep_firsts_not_mem_seen {α : Type} [DecidableEq α] :
    ∀ (l seen : List α) (y : α), y ∈ keep_firsts seen l → y ∉ seen := by
  intro l
  induction l with
  | nil => intro seen y hy; simp [keep_firsts] at hy
  | cons x xs ih =>
    intro seen y hy
    rw [keep_firsts] at hy
    by_cases hx : x ∈ seen
    · rw [if_pos hx] at hy
      exact ih seen y hy
    · rw [if_neg hx] at hy
      rcases List.mem_cons.mp hy with h | h
      · rw [h]; exact hx
      · intro hcon
        exact ih (x :: seen) y h (List.mem_cons_of_mem x hcon)

lemma keep_firsts_nodup {α : Type} [DecidableEq α] :
    ∀ (l seen : List α), (keep_firsts seen l).Nodup := by
  intro l
  induction l with
  | nil => intro seen; simp [keep_firsts]
  | cons x xs ih =>
    intro seen
    rw [keep_firsts]
    by_cases hx : x ∈ seen
    · rw [if_pos hx]; exact ih seen
    · rw [if_neg hx]
      refine List.nodup_cons.mpr ⟨?_, ih (x :: seen)⟩
      intro hcon
      exact keep_firsts_not_mem_seen xs (x :: seen) x hcon
        (List.mem_cons_self x seen)

lemma reverse_collect_take {α : Type} [Inhabited α] (l : List α) :
    ∀ (k fuel : Nat), k ≤ l.length → k + 1 ≤ fuel →
      reverse_collect l fuel ((k : ℤ) - 1) = (l.take k).reverse := by
  intro k
  induction k with
  | zero =>
    intro fuel _ hfuel
    cases fuel with
    | zero => omega
    | succ fuel =>
      rw [reverse_collect, if_pos (by norm_num)]
      simp
  | succ k ih =>
    intro fuel hk hfuel
    cases fuel with
    | zero => omega
    | succ fuel =>
      have hk' : k < l.length := by omega
      have hi : ((k + 1 : Nat) : ℤ) - 1 = (k : Int) := by push_cast; ring
      rw [reverse_collect, if_neg (by omega)]
      have htoNat : (((k + 1 : Nat) : ℤ) - 1).toNat = k := by
        rw [hi]
        exact Int.toNat_natCast k
      have hstep : ((k + 1 : Nat) : ℤ) - 1 - 1 = ((k : Nat) : ℤ) - 1 := by
        push_cast
        ring
      have hsome : l[k]? = some (l.get ⟨k, hk'⟩) := by
        rw [List.getElem?_eq_getElem hk']
        rfl
      rw [htoNat, hstep, ih fuel (by omega) (by omega), List.take_succ, hsome]
      rw [Option.toList_some, List.reverse_append, List.reverse_singleton,
        List.singleton_append, Option.getD_some]

lemma reverse_list_eq_reverse {α : Type} [Inhabited α] (l : List α) :
    reverse_list l = l.reverse := by
  rw [reverse_list]
  have h := reverse_collect_take l l.length (l.length + 1) le_rfl le_rfl
  rw [h, List.take_length]

lemma join_aux_nil {α β κ γ : Type} [DecidableEq κ] (right : List β)
    (ka : α → κ) (kb : β → κ) (t : α → β → γ) (rs : List β) :
    join_aux right ka kb t [] rs = [] := by
  rw [join_aux]

lemma join_aux_match {α β κ γ : Type} [DecidableEq κ] (right : List β)
    (ka : α → κ) (kb : β → κ) (t : α → β → γ) (l : α) (ls : List α)
    (rs : List β) (p : β × List β)
    (h : find_match kb (ka l) rs = some p) :
    join_aux right ka kb t (l :: ls) rs =
      t l p.1 :: join_aux right ka kb t (l :: ls) p.2 := by
  rw [join_aux]
  split
  · next q heq =>
    rw [h] at heq
    rw [Option.some_inj.mp heq]
  · next heq =>
    rw [h] at heq
    exact absurd heq (by simp)

lemma join_aux_nomatch {α β κ γ : Type} [DecidableEq κ] (right : List β)
    (ka : α → κ) (kb : β → κ) (t : α → β → γ) (l : α) (ls : List α)
    (rs : List β) (h : find_match kb (ka l) rs = none) :
    join_aux right ka kb t (l :: ls) rs = join_aux right ka kb t ls right := by
  rw [join_aux]
  split
  · next q heq =>
    rw [h] at heq
    exact absurd heq (by simp)
  · next heq => rfl

lemma join_aux_cons {α β κ γ : Type} [DecidableEq κ] (right : List β)
    (ka : α → κ) (kb : β → κ) (t : α → β → γ) (l : α) (ls : List α) :
    ∀ rs : List β,
      join_aux right ka kb t (l :: ls) rs =
        ((rs.filter fun r => decide (ka l = kb r)).map (t l)) ++
          join_aux right ka kb t ls right := by
  intro rs
  induction rs with
  | nil =>
    rw [join_aux_nomatch right ka kb t l ls [] (by rw [find_match])]
    simp
  | cons r rs ih =>
    by_cases hk : ka l = kb r
    · rw [join_aux_match right ka kb t l ls (r :: rs) (r, rs)
        (by rw [find_match, if_pos hk])]
      rw [ih]
      simp [List.filter_cons, hk]
    · have hfm : find_match kb (ka l) (r :: rs) = find_match kb (ka l) rs := by
        rw [find_match, if_neg hk]
      have hskip : join_aux right ka kb t (l :: ls) (r :: rs) =
          join_aux right ka kb t (l :: ls) rs := by
        cases hf : find_match kb (ka l) rs with
        | some q =>
          rw [join_aux_match right ka kb t l ls (r :: rs) q (hfm.trans hf),
            join_aux_match right ka kb t l ls rs q hf]
        | none =>
          rw [join_aux_nomatch right ka kb t l ls (r :: rs) (hfm.trans hf),
            join_aux_nomatch right ka kb t l ls rs hf]
      rw [hskip, ih]
      simp [List.filter_cons, hk]

lemma join_list_eq_flatMap {α β κ γ : Type} [DecidableEq κ]
    (ka : α → κ) (kb : β → κ) (t : α → β → γ) (right : List β) :
    ∀ left : List α,
      join_list left right ka kb t =
        left.flatMap fun a =>
          (right.filter fun b => decide (ka a = kb b)).map (t a) := by
  intro left
  induction left with
  | nil => rw [join_list, join_aux_nil]; rfl
  | cons l ls ih =>
    rw [join_list, join_aux_cons right ka kb t l ls right]
    rw [show join_aux right ka kb t ls right = join_list ls right ka kb t from rfl]
    rw [ih]
    rfl

lemma from_to_lt_iff (start e s : ℤ) (hs : 0 < s) (hlt : start < e)
    (k : Nat) :
    start + s * k < e ↔ k < steps_to_end start e s := by
  have hDN : (((e - start).toNat : ℤ)) = e - start :=
    Int.toNat_of_nonneg (by omega)
  have hsN : ((s.toNat : ℤ)) = s := Int.toNat_of_nonneg (by omega)
  have hDpos : 0 < (e - start).toNat := by omega
  have hspos : 0 < s.toNat := by omega
  have h1 : start + s * k < e ↔ s * (k : ℤ) < e - start := by
    constructor <;> intro h <;> linarith
  have h2 : s * (k : ℤ) < e - start ↔ s.toNat * k < (e - start).toNat := by
    rw [← hDN, ← hsN]
    norm_cast
  have hnatAbsD : (e - start).natAbs = (e - start).toNat := by omega
  have hnatAbsS : s.natAbs = s.toNat := by omega
  have h3 : s.toNat * k < (e - start).toNat ↔ k < steps_to_end start e s := by
    rw [steps_to_end, hnatAbsD, hnatAbsS]
    have hsplit : k < ((e - start).toNat - 1) / s.toNat + 1 ↔
        k ≤ ((e - start).toNat - 1) / s.toNat := by omega
    rw [hsplit, Nat.le_div_iff_mul_le hspos, Nat.mul_comm]
    exact Nat.lt_iff_le_pred hDpos
  rw [h1, h2, h3]

lemma from_to_go_asc (start e s : ℤ) (hs : 0 < s) (hlt : start < e) :
    ∀ (m fuel k : Nat) (prev : ℤ), k + m = steps_to_end start e s →
      prev ≠ e → m + 2 ≤ fuel →
      from_to_go start e s fuel k prev =
        (List.range' k m).map (fun j : ℕ => start + s * (j : ℤ)) ++ [e] := by
  intro m
  induction m with
  | zero =>
    intro fuel k prev hkm hprev hfuel
    have hge : e ≤ start + s * k := by
      by_contra hcon
      have := (from_to_lt_iff start e s hs hlt k).mp (lt_of_not_ge hcon)
      omega
    have hco : clamp_value e s (start + s * k) = e := by
      rw [clamp_value, if_neg (by omega : ¬ s < 0)]
      by_cases hgt : start + s * k > e
      · rw [if_pos hgt]
      · rw [if_neg hgt]
        exact le_antisymm (not_lt.mp hgt) hge
    cases fuel with
    | zero => omega
    | succ fuel =>
      rw [from_to_go, if_neg hprev, hco]
      cases fuel with
      | zero => omega
      | succ fuel =>
        rw [from_to_go, if_pos rfl]
        simp
  | succ m ih =>
    intro fuel k prev hkm hprev hfuel
    have hlt2 : start + s * k < e :=
      (from_to_lt_iff start e s hs hlt k).mpr (by omega)
    have hco : clamp_value e s (start + s * k) = start + s * k := by
      rw [clamp_value, if_neg (by omega : ¬ s < 0),
        if_neg (by omega : ¬ start + s * k > e)]
    cases fuel with
    | zero => omega
    | succ fuel =>
      rw [from_to_go, if_neg hprev, hco]
      rw [ih fuel (k + 1) (start + s * k) (by omega) (by omega) (by omega)]
      rw [List.range'_succ]
      simp

lemma clamp_value_neg (e s v : ℤ) (hs : s ≠ 0) :
    clamp_value (-e) (-s) (-v) = -clamp_value e s v := by
  rw [clamp_value, clamp_value]
  rcases lt_or_gt_of_ne hs with h | h
  · rw [if_pos h, if_neg (by omega : ¬ -s < 0)]
    by_cases hv : v < e
    · rw [if_pos hv, if_pos (by omega : -v > -e)]
    · rw [if_neg hv, if_neg (by omega : ¬ -v > -e)]
  · rw [if_neg (by omega : ¬ s < 0), if_pos (by omega : -s < 0)]
    by_cases hv : v > e
    · rw [if_pos hv, if_pos (by omega : -v < -e)]
    · rw [if_neg hv, if_neg (by omega : ¬ -v < -e)]

lemma from_to_go_neg (start e s : ℤ) (hs : s ≠ 0) :
    ∀ (fuel k : Nat) (prev : ℤ),
      from_to_go (-start) (-e) (-s) fuel k (-prev) =
        (from_to_go start e s fuel k prev).map (fun x => -x) := by
  intro fuel
  induction fuel with
  | zero => intro k prev; rfl
  | succ fuel ih =>
    intro k prev
    by_cases hp : prev = e
    · rw [from_to_go, from_to_go, if_pos (by rw [hp]), if_pos hp]
      rfl
    · rw [from_to_go, from_to_go, if_neg (by omega : ¬ -prev = -e), if_neg hp]
      have harg : -start + -s * (k : ℤ) = -(start + s * k) := by ring
      rw [harg, clamp_value_neg e s (start + s * k) hs,
        ih (k + 1) (clamp_value e s (start + s * k))]
      rfl

lemma unsign_step_pos (step : ℤ) (hstep : step ≠ 0) : 0 < unsign_step step := by
  rw [unsign_step]
  by_cases h : step < 0
  · rw [if_pos h]; omega
  · rw [if_neg h]; omega

/-!
## Claim theorems
-/

/-- Claim C1.  The claim says `order_by` always sorts *stably*.  The code
sorts its buffer with `std::sort` (linq.hpp:1324-1326), whose contract only
guarantees a sorted permutation and says nothing about elements whose keys
compare equal.  This theorem exhibits, for the source comparator
`compare_keys` with key selector `Prod.snd` ascending, a concrete input of
two equal-keyed elements and an output that satisfies the full `std::sort`
contract yet reverses the equal-keyed pair — differing from the stable
result the spec requires.  Hence the code does not guarantee the claim. -/
theorem order_by_sort_contract_permits_unstable :
    std_sort_contract (compare_keys Prod.snd SortDirection.ascending)
      [((0 : ℤ), (0 : ℤ)), (1, 0)] [(1, 0), (0, 0)] ∧
    [((1 : ℤ), (0 : ℤ)), (0, 0)] ≠
      stable_sort (compare_keys Prod.snd SortDirection.ascending)
        [((0 : ℤ), (0 : ℤ)), (1, 0)] := by
  refine ⟨⟨by decide, by decide⟩, by decide⟩

/-- Claim C3 (amended).  When the second range is non-empty, `append`
yields exactly the first range's elements followed by the second's and its
length is the sum of the lengths; when the second range is empty, the
appended range yields nothing at all, because iterator equality against the
end sentinel compares only the second range's cursor (linq.hpp:1023-1029). -/
theorem append_concat (as bs : List ℤ) :
    (bs ≠ [] →
      append_collect as bs = as ++ bs ∧
        (append_collect as bs).length = as.length + bs.length) ∧
    append_collect as [] = [] := by
  constructor
  · intro hbs
    refine ⟨append_collect_eq_append as bs hbs, ?_⟩
    rw [append_collect_eq_append as bs hbs]
    simp
  · simp [append_collect]

/-- Witness for C3's amended theorem at a concrete input. -/
theorem append_concat_witness :
    append_collect [(1 : ℤ), 2] [3] = [1, 2] ++ [3] ∧
      (append_collect [(1 : ℤ), 2] [3]).length = 2 + 1 := by
  have h := (append_concat [(1 : ℤ), 2] [3]).1 (by decide)
  exact ⟨h.1, by simpa using h.2⟩

/-- Counterexample for C3 as stated: appending an *empty* second range to a
non-empty first range yields the empty output, not the concatenation, and
the count is 0 rather than count(A) + count(B). -/
theorem append_empty_second_counterexample :
    append_collect [(1 : ℤ)] [] = [] ∧
      append_collect [(1 : ℤ)] [] ≠ [(1 : ℤ)] ++ [] ∧
      (append_collect [(1 : ℤ)] [] ).length ≠
        [(1 : ℤ)].length + ([] : List ℤ).length := by
  refine ⟨by simp [append_collect], ?_, ?_⟩ <;> simp [append_collect]

/-- Claim C5 (evaluation at the failing input).  The only `element_at` the
header provides takes a mandatory caller-supplied default and returns a
plain value: beyond bounds it returns that default (here 99), which is a
sentinel indistinguishable from real data — there is no empty-optional
result.  In bounds it returns the element at the zero-based index. -/
theorem element_at_default_eval :
    element_at ([1, 2, 3, 4] : List ℤ) 6 99 = 99 ∧
      element_at ([1, 2, 3, 4] : List ℤ) 2 0 = 3 := by
  decide

/-- Claim C8.  A fresh `distinct()` traversal has no two equal elements,
is a subsequence of its input, equals the first-occurrence filter of the
input (so first-occurrence order is preserved), the first element of a
non-empty predecessor is always emitted, and the spec's example evaluates
as stated. -/
theorem distinct_spec :
    (∀ l : List ℤ,
      (distinct_list l).Nodup ∧ List.Sublist (distinct_list l) l ∧
        distinct_list l = keep_firsts [] l) ∧
    (∀ (x : ℤ) (xs : List ℤ), (distinct_list (x :: xs)).head? = some x) ∧
    distinct_list ([1, 2, 3, 3, 5, 4, 5, 6, 7] : List ℤ) =
      [1, 2, 3, 5, 4, 6, 7] := by
  refine ⟨?_, ?_, by decide⟩
  · intro l
    rw [distinct_list_eq_keep_firsts]
    exact ⟨keep_firsts_nodup l [], keep_firsts_sublist l [], rfl⟩
  · intro x xs
    rw [distinct_list_eq_keep_firsts, keep_firsts, if_neg (by simp)]
    rfl

lemma distinct_restart_rematerializes (l : List ℤ) (w : List Nat) :
    distinct_run l (l.length + 1) (distinct_start l w) = distinct_list l := by
  cases l with
  | nil => rfl
  | cons x xs =>
    rw [distinct_list]
    rw [distinct_start, if_pos (by simp), distinct_start, if_pos (by simp)]

/-- Claim C2 (amended).  Every `start()` of the distinct, order_by and
reverse stages re-materializes its stage-local state from scratch — the
shared buffer is cleared and rebuilt from the predecessor alone — so a
cursor started after any earlier traversal (whatever stale state `w` that
traversal left in the shared buffer) and then consumed on its own yields
exactly the stage's own sequence: stale state never leaks into a new
traversal.  For distinct the fresh full traversal is the distinct
sequence; for reverse the fresh cursor walks the newly materialised buffer
to the reversed sequence; for order_by the freshly built sorted buffer is
the same whatever stale contents were left, for every implementation of
`std::sort`.  (Starting a second cursor can still corrupt a
partially-consumed *first* cursor, because the buffer is shared — see the
counterexample.) -/
theorem restart_rematerializes :
    (∀ (l : List ℤ) (w : List Nat),
      distinct_run l (l.length + 1) (distinct_start l w) = distinct_list l) ∧
    (∀ (l w : List ℤ),
      reverse_collect (reverse_start l w).1
        ((reverse_start l w).1.length + 1) (reverse_start l w).2 =
        reverse_list l) ∧
    (∀ (α κ : Type) [LinearOrder κ]
      (sort_impl : (α → α → Bool) → List α → List α)
      (key_selector : α → κ) (dir : SortDirection) (l w w' : List α),
      order_by_start sort_impl key_selector dir l w =
        order_by_start sort_impl key_selector dir l w') := by
  refine ⟨distinct_restart_rematerializes, ?_, ?_⟩
  · intro l w
    rfl
  · intro α κ inst sort_impl key_selector dir l w w'
    rfl

/-- Witness for C2's amended theorem: restarting distinct over [1,2,3,2]
with the stale buffer [0,1] left by a previous partial traversal, and
reverse over [1,2,3] with a stale buffer, still yields each stage's own
sequence. -/
theorem restart_rematerializes_witness :
    distinct_run ([1, 2, 3, 2] : List ℤ) 5
        (distinct_start [1, 2, 3, 2] [0, 1]) = distinct_list [1, 2, 3, 2] ∧
      reverse_collect (reverse_start ([1, 2, 3] : List ℤ) [9, 9, 9]).1
        ((reverse_start ([1, 2, 3] : List ℤ) [9, 9, 9]).1.length + 1)
        (reverse_start ([1, 2, 3] : List ℤ) [9, 9, 9]).2 =
        reverse_list [1, 2, 3] :=
  ⟨restart_rematerializes.1 [1, 2, 3, 2] [0, 1],
    restart_rematerializes.2.1 [1, 2, 3] [9, 9, 9]⟩

/-- Counterexample for C2 as stated.  Over the input [1,2,3,2], a first
distinct cursor reads 1, advances (shared buffer now records positions 0
and 1) and reads 2.  Consumed alone, its remainder is [3].  But if a second
cursor is started at this point, `start()` clears the shared buffer back to
[0]; the first cursor's remainder then becomes [3, 2] — the duplicate 2 is
re-emitted, so the second `start()` changed the elements remaining on the
partially-consumed first cursor. -/
theorem distinct_shared_buffer_counterexample :
    distinct_start ([1, 2, 3, 2] : List ℤ) [] = (0, [0]) ∧
      distinct_advance ([1, 2, 3, 2] : List ℤ) 0 [0] = (1, [0, 1]) ∧
      distinct_run ([1, 2, 3, 2] : List ℤ) 5
        (distinct_advance [1, 2, 3, 2] 1 [0, 1]) = [3] ∧
      (distinct_start ([1, 2, 3, 2] : List ℤ) [0, 1]).2 = [0] ∧
      distinct_run ([1, 2, 3, 2] : List ℤ) 5
        (distinct_advance [1, 2, 3, 2] 1 [0]) = [3, 2] ∧
      ([3, 2] : List ℤ) ≠ [3] := by
  decide

/-- Claim C4.  The optional-result terminal operations: on an empty
sequence (or, for the predicate forms, when nothing matches) each of
`first`, `last`, `min`, `max`, `sum`, `average` yields the empty optional;
on a non-empty/matching sequence each yields an optional holding the first
match, last match, minimum, maximum, sum, and arithmetic mean
respectively. -/
theorem terminal_ops_optional :
    (∀ l : List ℚ, first_op l = l.head?) ∧
    (∀ l : List ℚ, last_op l = l.getLast?) ∧
    (∀ l : List ℚ, (first_op l = none ↔ l = []) ∧ (last_op l = none ↔ l = [])) ∧
    (∀ (p : ℚ → Bool) (l : List ℚ), first_pred p l = (l.filter p).head?) ∧
    (∀ (p : ℚ → Bool) (l : List ℚ), last_pred p l = (l.filter p).getLast?) ∧
    (∀ (p : ℚ → Bool) (l : List ℚ),
      (first_pred p l = none ↔ ∀ x ∈ l, p x = false) ∧
        (last_pred p l = none ↔ ∀ x ∈ l, p x = false)) ∧
    (∀ l : List ℚ,
      (sum_op l = none ↔ l = []) ∧ (min_op l = none ↔ l = []) ∧
        (max_op l = none ↔ l = []) ∧ (average_op l = none ↔ l = [])) ∧
    (∀ (x : ℚ) (xs : List ℚ), sum_op (x :: xs) = some ((x :: xs).sum)) ∧
    (∀ (l : List ℚ) (m : ℚ), min_op l = some m ↔ m ∈ l ∧ ∀ y ∈ l, m ≤ y) ∧
    (∀ (l : List ℚ) (m : ℚ), max_op l = some m ↔ m ∈ l ∧ ∀ y ∈ l, y ≤ m) ∧
    (∀ (x : ℚ) (xs : List ℚ),
      average_op (x :: xs) =
        some ((x :: xs).sum / ((x :: xs).length : ℚ))) := by
  have hfilter_none : ∀ (p : ℚ → Bool) (l : List ℚ),
      l.filter p = [] ↔ ∀ x ∈ l, p x = false := by
    intro p l
    rw [List.filter_eq_nil_iff]
    constructor
    · intro h x hx
      simpa using h x hx
    · intro h x hx
      simp [h x hx]
  have hnone : ∀ l : List ℚ,
      (sum_op l = none ↔ l = []) ∧ (min_op l = none ↔ l = []) ∧
        (max_op l = none ↔ l = []) ∧ (average_op l = none ↔ l = []) := by
    intro l
    cases l with
    | nil => simp [sum_op, min_op, max_op, average_op, sum_and_count]
    | cons x xs =>
      refine ⟨?_, ?_, ?_, ?_⟩
      · simp [sum_op_cons]
      · have h := (min_op_some_iff (x :: xs) (xs.foldl min x)).mpr
          ⟨foldl_min_mem xs x, fun y hy => foldl_min_le xs x y hy⟩
        simp [h]
      · have h := (max_op_some_iff (x :: xs) (xs.foldl max x)).mpr
          ⟨foldl_max_mem xs x, fun y hy => foldl_max_ge xs x y hy⟩
        simp [h]
      · simp [average_op_cons]
  refine ⟨first_op_eq_head, last_op_eq_getLast, ?_,
    first_pred_eq_filter_head, fun p l => last_pred_eq_filter_getLast p l,
    ?_, hnone, sum_op_cons, min_op_some_iff, max_op_some_iff,
    average_op_cons⟩
  · intro l
    rw [first_op_eq_head, last_op_eq_getLast, List.head?_eq_none_iff,
      List.getLast?_eq_none_iff]
    exact ⟨Iff.rfl, Iff.rfl⟩
  · intro p l
    rw [first_pred_eq_filter_head, last_pred_eq_filter_getLast,
      List.head?_eq_none_iff, List.getLast?_eq_none_iff]
    exact ⟨hfilter_none p l, hfilter_none p l⟩

/-- Witness for C4 at concrete inputs: `sum`, `average`, `min` and a
non-matching `first(predicate)` evaluated on [1,2,3,4] and []. -/
theorem terminal_ops_optional_witness :
    sum_op [1, 2, 3, 4] = some 10 ∧
      average_op [1, 2, 3, 4] = some (5 / 2) ∧
      min_op [] = none ∧
      first_pred (fun x => decide (4 < x)) [(1 : ℚ), 2, 3, 4] = none := by
  obtain ⟨_, _, _, _, _, hpred, hnone, hsum, _, _, havg⟩ :=
    terminal_ops_optional
  refine ⟨?_, ?_, ?_, ?_⟩
  · rw [hsum 1 [2, 3, 4]]
    norm_num
  · rw [havg 1 [2, 3, 4]]
    norm_num
  · exact (hnone []).2.1.mpr rfl
  · exact ((hpred (fun x => decide (4 < x)) [1, 2, 3, 4]).1).mpr (by decide)

/-- Claim C9.  Reversing a finite range twice yields the original
element order, including the empty range (whose `begin` index under-flows
to the end sentinel). -/
theorem reverse_reverse_id {α : Type} [Inhabited α] (l : List α) :
    reverse_list (reverse_list l) = l := by
  rw [reverse_list_eq_reverse, reverse_list_eq_reverse, List.reverse_reverse]

/-- Witness for C9 at a concrete input. -/
theorem reverse_reverse_id_witness :
    reverse_list (reverse_list ([1, 2, 3] : List ℤ)) = [1, 2, 3] :=
  reverse_reverse_id [1, 2, 3]

/-- Claim C6.  The join stage yields, for each left element in left order,
one transformed row per key-equal right element in right order (the
wrap-around reset makes every left element rescan the right range from the
start, and `advance()`'s pre-increment resumes past the previous match),
i.e. the output equals the nested-loop flat map.  On the spec's example the
result is exactly P1 with 22, P1 with 26, P3 with 23, in that order. -/
theorem join_nested_loop :
    (∀ (α β κ γ : Type) [DecidableEq κ] (ka : α → κ) (kb : β → κ)
      (t : α → β → γ) (left : List α) (right : List β),
      join_list left right ka kb t =
        left.flatMap fun a =>
          (right.filter fun b => decide (ka a = kb b)).map (t a)) ∧
    join_list [("P1", (20 : ℤ)), ("P2", 21), ("P3", 22)]
        [("P1", (22 : ℤ)), ("P3", 23), ("P1", 26)] Prod.fst Prod.fst
        (fun a b => (a.1, b.2)) =
      [("P1", 22), ("P1", 26), ("P3", 23)] := by
  refine ⟨fun α β κ γ _ ka kb t left right =>
    join_list_eq_flatMap ka kb t right left, ?_⟩
  rw [join_list_eq_flatMap]
  decide

/-- Witness for C6: the general nested-loop equation applied at the
example's inputs. -/
theorem join_nested_loop_witness :
    join_list [((1 : ℤ), (10 : ℤ)), (2, 20)] [((1 : ℤ), (7 : ℤ)), (1, 8)]
        Prod.fst Prod.fst (fun a b => (a.2, b.2)) =
      ([((1 : ℤ), (10 : ℤ)), (2, 20)].flatMap fun a =>
        ([((1 : ℤ), (7 : ℤ)), (1, 8)].filter fun b =>
          decide (a.1 = b.1)).map fun b => (a.2, b.2)) :=
  join_nested_loop.1 _ _ _ _ Prod.fst Prod.fst _ _ _

/-- Claim C7 (amended).  For every nonzero integral step and every
`start ≠ end`, `from_to` emits the arithmetic sequence `start, start + s,
start + 2·s, ...` with `s` the step normalised to the direction implied by
`start` versus `end`, followed by exactly the inclusive end bound as the
final value (clamped there even when a full step would overshoot), at which
point iteration stops.  (When `start = end`, the range is empty — see the
counterexample.) -/
theorem from_to_arith_seq (start e step : ℤ) (hstep : step ≠ 0)
    (hne : start ≠ e) :
    from_to_list start e step =
      (List.range (steps_to_end start e (normal_step start e step))).map
        (fun k : ℕ => start + normal_step start e step * (k : ℤ)) ++ [e] := by
  have hu : 0 < unsign_step step := unsign_step_pos step hstep
  rcases lt_or_gt_of_ne hne with hlt | hgt
  · have hsval : normal_step start e step = unsign_step step := by
      rw [normal_step, if_neg (by omega)]
    have hs : 0 < normal_step start e step := by rw [hsval]; exact hu
    have hfuel : steps_to_end start e (normal_step start e step) + 2 ≤
        (e - start).natAbs + 2 := by
      rw [steps_to_end]
      have hd : ((e - start).natAbs - 1) / (normal_step start e step).natAbs ≤
          (e - start).natAbs - 1 := Nat.div_le_self _ _
      omega
    rw [from_to_list,
      from_to_go_asc start e (normal_step start e step) hs hlt
        (steps_to_end start e (normal_step start e step))
        ((e - start).natAbs + 2) 0 start (by omega) (by omega) hfuel,
      List.range_eq_range']
  · -- descending: reduce to the ascending case on the negated data
    have hsval : normal_step start e step = -(unsign_step step) := by
      rw [normal_step, if_pos (by omega)]
    have hs : normal_step start e step < 0 := by rw [hsval]; omega
    have hsne : normal_step start e step ≠ 0 := by omega
    have hneg : from_to_list start e step =
        (from_to_go (-start) (-e) (-(normal_step start e step))
          ((e - start).natAbs + 2) 0 (-start)).map (fun x => -x) := by
      rw [from_to_list,
        from_to_go_neg start e (normal_step start e step) hsne
          ((e - start).natAbs + 2) 0 start]
      rw [List.map_map]
      have hid : ((fun x : ℤ => -x) ∘ fun x : ℤ => -x) = id := by
        funext x
        simp
      rw [hid, List.map_id]
    have hlt2 : -start < -e := by omega
    have hN : steps_to_end (-start) (-e) (-(normal_step start e step)) =
        steps_to_end start e (normal_step start e step) := by
      rw [steps_to_end, steps_to_end]
      have h1 : (-e - -start).natAbs = (e - start).natAbs := by omega
      have h2 : (-(normal_step start e step)).natAbs =
          (normal_step start e step).natAbs := by omega
      rw [h1, h2]
    have hfuel : steps_to_end (-start) (-e) (-(normal_step start e step)) + 2 ≤
        (e - start).natAbs + 2 := by
      rw [hN, steps_to_end]
      have hd : ((e - start).natAbs - 1) / (normal_step start e step).natAbs ≤
          (e - start).natAbs - 1 := Nat.div_le_self _ _
      omega
    rw [hneg,
      from_to_go_asc (-start) (-e) (-(normal_step start e step))
        (by omega) hlt2
        (steps_to_end (-start) (-e) (-(normal_step start e step)))
        ((e - start).natAbs + 2) 0 (-start) (by omega) (by omega) hfuel,
      hN, List.range_eq_range']
    rw [List.map_append, List.map_map]
    have hfun : ∀ j ∈ List.range' 0 (steps_to_end start e
        (normal_step start e step)),
        ((fun x : ℤ => -x) ∘ fun j : ℕ => -start + -(normal_step start e step) * (j : ℤ)) j =
          start + normal_step start e step * (j : ℤ) := by
      intro j _
      simp only [Function.comp_apply]
      ring
    rw [List.map_congr_left hfun]
    simp

/-- Witness for C7's amended theorem: an ascending run whose last full step
would overshoot the bound, so the final value is clamped to exactly 10. -/
theorem from_to_arith_seq_witness :
    from_to_list 0 10 3 = [0, 3, 6, 9, 10] := by
  rw [from_to_arith_seq 0 10 3 (by decide) (by decide)]
  decide

/-- Counterexample for C7 as stated: with `start = end` (and a nonzero
step) the initial cursor value already equals the end iterator's value, so
the range is empty — the inclusive end bound is never emitted. -/
theorem from_to_start_eq_end_counterexample :
    from_to_list 5 5 1 = [] ∧ ¬ ((5 : ℤ) ∈ from_to_list 5 5 1) := by
  decide

/-- Claim C10.  `none(p)` is true exactly when the range is empty or some
element fails `p`, and on non-empty ranges it equals the negation of
`all(p)` — matching the flag machine of linq.hpp:2199-2213. -/
theorem none_op_spec :
    (∀ (p : ℤ → Bool) (l : List ℤ),
      none_op p l = true ↔ l = [] ∨ ∃ x ∈ l, p x = false) ∧
    ∀ (p : ℤ → Bool) (x : ℤ) (xs : List ℤ),
      none_op p (x :: xs) = !all_op p (x :: xs) := by
  have h2 : ∀ (p : ℤ → Bool) (x : ℤ) (xs : List ℤ),
      none_op p (x :: xs) = !all_op p (x :: xs) := by
    intro p x xs
    by_cases hx : p x = true
    · simp [none_op, all_op, hx, none_loop_eq_not_all]
    · simp [none_op, all_op, hx]
  refine ⟨?_, h2⟩
  intro p l
  cases l with
  | nil => simp [none_op]
  | cons x xs =>
    rw [h2 p x xs]
    constructor
    · intro h
      right
      have : ¬ all_op p (x :: xs) = true := by
        simp only [Bool.not_eq_true'] at h ⊢
        simpa using h
      rw [all_op_iff] at this
      push_neg at this
      obtain ⟨y, hy, hpy⟩ := this
      exact ⟨y, hy, by simpa using hpy⟩
    · intro h
      rcases h with h | ⟨y, hy, hpy⟩
      · exact absurd h (by simp)
      · have : ¬ all_op p (x :: xs) = true := by
          rw [all_op_iff]
          push_neg
          exact ⟨y, hy, by simp [hpy]⟩
        simp only [Bool.not_eq_true] at this
        simp [this]

/-- Witness for C10 at a concrete input: one failing element makes
`none` true and `all` false. -/
theorem none_op_spec_witness :
    none_op (fun x => decide (0 < x)) [(1 : ℤ), -2] =
      !all_op (fun x => decide (0 < x)) [(1 : ℤ), -2] :=
  none_op_spec.2 (fun x => decide (0 < x)) 1 [-2]

end Linq
